import Mathlib

/-!
Shallow embedding of the UCT Monte Carlo tree search engine in `src/UCT.py`
(classes `GameState` and `Node`, functions `UCT`, `regular_std`, `last_res_std`),
together with proofs of the specification claims about it.

Modelling conventions:
* Game results (Python floats in `[0.0, 1.0]`) are modelled as rationals (`ℚ`);
  the UCB1 selection score, which involves `sqrt` and `log`, lives in `ℝ`.
* Mutation is modelled by explicit state passing: a `Node` object becomes a
  value of the inductive type `MTree`, and an in-place update becomes the
  construction of a new tree.
* `random.choice` is modelled by an ambient stream `rnd : ℕ → ℕ` of draws
  together with a position counter; draw `k` on a list `l` picks index
  `rnd k % l.length`.
* Python's `sorted(xs, key = f)[-1]` (a stable sort followed by taking the last
  element) is modelled by `pySortedLast`, i.e. `List.mergeSort` (stable) and
  `List.getLast?`; the partial indexing `[-1]` on a possibly empty list is
  modelled by `Option` (`none` = the `IndexError` raised by CPython).
* The unbounded rollout loop `while state.GetMoves() != []` is given explicit
  fuel; all claims proved below hold for every fuel value.
-/

namespace MCTS

/-- The game-state capability consumed by the engine (class `GameState` in the
source): `DoMove` (mutation becomes a function returning the new state),
`GetMoves`, `GetResult`, and the `playerJustMoved` attribute.  `Clone` is the
identity in a pure embedding and is not represented. -/
structure Game (S M : Type) where
  doMove : S → M → S
  getMoves : S → List M
  getResult : S → ℕ → ℚ
  playerJustMoved : S → ℕ

/-- A node of the search tree (class `Node` in the source).  The
`parentNode` back-reference is not represented: backpropagation is modelled by
updating the nodes on the selection path as the recursion returns.
`rollouts_counter` (a Python `Counter`) is an association list in insertion
order; `last_rollout_res` is `none` until the node is first updated. -/
inductive MTree (M : Type) : Type where
  | mk (move : Option M) (wins : ℚ) (visits : ℕ) (untriedMoves : List M)
      (playerJustMoved : ℕ) (rollouts_counter : List (ℚ × ℕ))
      (last_rollout_res : Option ℚ) (childNodes : List (MTree M))

namespace MTree

variable {M : Type}

def move : MTree M → Option M
  | .mk mv _ _ _ _ _ _ _ => mv

def wins : MTree M → ℚ
  | .mk _ w _ _ _ _ _ _ => w

def visits : MTree M → ℕ
  | .mk _ _ v _ _ _ _ _ => v

def untriedMoves : MTree M → List M
  | .mk _ _ _ u _ _ _ _ => u

def playerJustMoved : MTree M → ℕ
  | .mk _ _ _ _ p _ _ _ => p

def rollouts_counter : MTree M → List (ℚ × ℕ)
  | .mk _ _ _ _ _ c _ _ => c

def last_rollout_res : MTree M → Option ℚ
  | .mk _ _ _ _ _ _ r _ => r

def childNodes : MTree M → List (MTree M)
  | .mk _ _ _ _ _ _ _ ch => ch

end MTree

/-- One increment of a Python `Counter` held as an association list:
`c[result] += 1` bumps the first entry with the given key, or appends a fresh
entry with count 1 (CPython dicts preserve insertion order). -/
def counterIncr : List (ℚ × ℕ) → ℚ → List (ℚ × ℕ)
  | [], r => [(r, 1)]
  | (k, v) :: rest, r =>
    if k = r then (k, v + 1) :: rest else (k, v) :: counterIncr rest r

/-- The count stored in the counter for a given key (0 when absent). -/
def counterCount (l : List (ℚ × ℕ)) (r : ℚ) : ℕ :=
  ((l.filter (fun p => p.1 = r)).map (fun p => p.2)).sum

/-- Total of all counts in the counter. -/
def counterTotal (l : List (ℚ × ℕ)) : ℕ :=
  (l.map (fun p => p.2)).sum

/-- `Node.__init__`: a fresh node records the move that produced it, captures
`untriedMoves` from `state.GetMoves()` and `playerJustMoved` from the state,
and starts with `wins = 0`, `visits = 0`, an empty counter, no last result and
no children. -/
def newNode {S M : Type} (g : Game S M) (mv : Option M) (s : S) : MTree M :=
  .mk mv 0 0 (g.getMoves s) (g.playerJustMoved s) [] none []

/-- `Node.Update(result)`: one more visit, `result` more wins, bump the
counter at `result`, and record `result` as the last rollout result. -/
def MTree.Update {M : Type} : MTree M → ℚ → MTree M
  | .mk mv w v u p c _ ch, r =>
    .mk mv (w + r) (v + 1) u p (counterIncr c r) (some r) ch

/-- `Node.AddChild(m, s)`: build the new child from `s`, remove `m` from
`untriedMoves` (Python `list.remove` raises `ValueError`, modelled by `none`,
when `m` is absent), append the child and return it together with the updated
parent. -/
def MTree.AddChild {S M : Type} [DecidableEq M] (g : Game S M) :
    MTree M → M → S → Option (MTree M × MTree M)
  | .mk mv w v u p c lr ch, m, s =>
    if m ∈ u then
      some (.mk mv w v (u.erase m) p c lr (ch ++ [newNode g (some m) s]),
        newNode g (some m) s)
    else none

/-- The mean of the rollout-outcome distribution, as computed by both
`regular_std` and `last_res_std`: `sum([k*v for k, v in c.items()])/n`. -/
def node_mean {M : Type} (t : MTree M) : ℚ :=
  ((t.rollouts_counter.map (fun p => p.1 * (p.2 : ℚ))).sum) / (t.visits : ℚ)

/-- The heuristic `regular_std`: population-weighted standard deviation of the
rollout-outcome distribution, `sqrt((Σ v * (k - mean)^2) / n)`. -/
noncomputable def regular_std {M : Type} (t : MTree M) : ℝ :=
  Real.sqrt
    (((t.rollouts_counter.map (fun p => (p.2 : ℚ) * (p.1 - node_mean t) ^ 2)).sum /
      (t.visits : ℚ) : ℚ))

/-- The heuristic `last_res_std`: `abs(mean - node.last_rollout_res)`.  The
Python expression raises a `TypeError` when `last_rollout_res` is still
`None`, modelled by `Option`. -/
def last_res_std {M : Type} (t : MTree M) : Option ℚ :=
  t.last_rollout_res.map (fun r => |node_mean t - r|)

/-- Python's `sorted(l, key = key)[-1]`: stable sort in ascending key order,
then the last element (`none` models the `IndexError` on an empty list). -/
def pySortedLast {α K : Type} [LinearOrder K] (key : α → K) (l : List α) :
    Option α :=
  (l.mergeSort (fun a b => decide (key a ≤ key b))).getLast?

/-- The blended selection score used by `Node.UCTSelectChild` for a child `c`
of `p`:
`(1-w)*(c.wins/c.visits + sqrt(2*log(p.visits)/c.visits)) + w*selection_function(c)`. -/
noncomputable def uctScore {M : Type} (selection_function : MTree M → ℝ)
    (w : ℝ) (p c : MTree M) : ℝ :=
  (1 - w) * ((c.wins : ℝ) / (c.visits : ℝ) +
      Real.sqrt (2 * Real.log (p.visits : ℝ) / (c.visits : ℝ))) +
    w * selection_function c

/-- `Node.UCTSelectChild(selection_function, w)`:
`sorted(self.childNodes, key = blended score)[-1]`. -/
noncomputable def MTree.UCTSelectChild {M : Type} (t : MTree M)
    (selection_function : MTree M → ℝ) (w : ℝ) : Option (MTree M) :=
  pySortedLast (fun c => uctScore selection_function w t c) t.childNodes

/-- `random.choice(l)` under the ambient draw stream: the element at index
`rnd pos % l.length` of a nonempty list. -/
def pyChoice {α : Type} (rnd : ℕ → ℕ) (pos : ℕ) (l : List α) (h : l ≠ []) : α :=
  l.get ⟨rnd pos % l.length, Nat.mod_lt _ (List.length_pos.mpr h)⟩

/-- The rollout loop `while state.GetMoves() != []: state.DoMove(random.choice(state.GetMoves()))`,
with explicit fuel; returns the reached state and the next draw position. -/
def rollout {S M : Type} (g : Game S M) (rnd : ℕ → ℕ) :
    ℕ → S → ℕ → S × ℕ
  | 0, s, pos => (s, pos)
  | fuel + 1, s, pos =>
    match g.getMoves s with
    | [] => (s, pos)
    | m :: ms =>
      rollout g rnd fuel
        (g.doMove s (pyChoice rnd pos (m :: ms) (List.cons_ne_nil m ms))) (pos + 1)

/-- The index and value of the last occurrence of a maximal-key element of a
list.  This is the element (and the position of the object) that Python's
stable `sorted(l, key)[-1]` denotes; the equivalence with `pySortedLast` is
proved below (`pySortedLast_eq_lastArgmax`). -/
def lastArgmax {α K : Type} [LinearOrder K] (key : α → K) : List α → Option (ℕ × α)
  | [] => none
  | a :: l =>
    match lastArgmax key l with
    | none => some (0, a)
    | some (j, b) => if key a ≤ key b then some (j + 1, b) else some (0, a)

theorem lastArgmax_eq_none {α K : Type} [LinearOrder K] (key : α → K)
    {l : List α} : lastArgmax key l = none ↔ l = [] := by
  cases l with
  | nil => simp [lastArgmax]
  | cons a l =>
    simp only [lastArgmax]
    cases lastArgmax key l with
    | none => simp
    | some p =>
      obtain ⟨j, b⟩ := p
      by_cases h : key a ≤ key b <;> simp [h]

theorem lastArgmax_isSome {α K : Type} [LinearOrder K] (key : α → K)
    {l : List α} (h : l ≠ []) : (lastArgmax key l).isSome := by
  cases hl : lastArgmax key l with
  | none => exact absurd ((lastArgmax_eq_none key).mp hl) h
  | some p => rfl

theorem lastArgmax_getElem? {α K : Type} [LinearOrder K] {key : α → K}
    {l : List α} {j : ℕ} {b : α} (h : lastArgmax key l = some (j, b)) :
    l[j]? = some b := by
  induction l generalizing j b with
  | nil => simp [lastArgmax] at h
  | cons a l ih =>
    simp only [lastArgmax] at h
    cases hl : lastArgmax key l with
    | none =>
      rw [hl] at h
      simp only [Option.some.injEq, Prod.mk.injEq] at h
      obtain ⟨rfl, rfl⟩ := h
      simp
    | some p =>
      obtain ⟨j', b'⟩ := p
      rw [hl] at h
      by_cases hle : key a ≤ key b' <;> simp only [hle, if_true, if_false,
        Option.some.injEq, Prod.mk.injEq] at h
      · obtain ⟨rfl, rfl⟩ := h
        simpa using ih hl
      · obtain ⟨rfl, rfl⟩ := h
        simp

theorem lastArgmax_mem {α K : Type} [LinearOrder K] {key : α → K}
    {l : List α} {j : ℕ} {b : α} (h : lastArgmax key l = some (j, b)) :
    b ∈ l := by
  have := lastArgmax_getElem? h
  exact List.getElem?_mem this

theorem lastArgmax_le {α K : Type} [LinearOrder K] {key : α → K}
    {l : List α} {j : ℕ} {b : α} (h : lastArgmax key l = some (j, b)) :
    ∀ x ∈ l, key x ≤ key b := by
  induction l generalizing j b with
  | nil => simp [lastArgmax] at h
  | cons a l ih =>
    simp only [lastArgmax] at h
    cases hl : lastArgmax key l with
    | none =>
      have : l = [] := (lastArgmax_eq_none key).mp hl
      subst this
      rw [hl] at h
      simp only [Option.some.injEq, Prod.mk.injEq] at h
      obtain ⟨rfl, rfl⟩ := h
      simp
    | some p =>
      obtain ⟨j', b'⟩ := p
      rw [hl] at h
      by_cases hle : key a ≤ key b' <;> simp only [hle, if_true, if_false,
        Option.some.injEq, Prod.mk.injEq] at h
      · obtain ⟨rfl, rfl⟩ := h
        intro x hx
        rcases List.mem_cons.mp hx with rfl | hx
        · exact hle
        · exact ih hl x hx
      · obtain ⟨rfl, rfl⟩ := h
        intro x hx
        rcases List.mem_cons.mp hx with rfl | hx
        · exact le_refl _
        · exact le_of_lt (lt_of_le_of_lt (ih hl x hx) (lt_of_not_le hle))

theorem lastArgmax_lt_of_gt {α K : Type} [LinearOrder K] {key : α → K}
    {l : List α} {j : ℕ} {b : α} (h : lastArgmax key l = some (j, b)) :
    ∀ (k : ℕ) (x : α), j < k → l[k]? = some x → key x < key b := by
  induction l generalizing j b with
  | nil => simp [lastArgmax] at h
  | cons a l ih =>
    simp only [lastArgmax] at h
    cases hl : lastArgmax key l with
    | none =>
      have : l = [] := (lastArgmax_eq_none key).mp hl
      subst this
      rw [hl] at h
      simp only [Option.some.injEq, Prod.mk.injEq] at h
      obtain ⟨rfl, rfl⟩ := h
      intro k x hk hx
      cases k with
      | zero => omega
      | succ k => simp at hx
    | some p =>
      obtain ⟨j', b'⟩ := p
      rw [hl] at h
      by_cases hle : key a ≤ key b' <;> simp only [hle, if_true, if_false,
        Option.some.injEq, Prod.mk.injEq] at h
      · obtain ⟨rfl, rfl⟩ := h
        intro k x hk hx
        cases k with
        | zero => omega
        | succ k =>
          simp only [List.getElem?_cons_succ] at hx
          exact ih hl k x (by omega) hx
      · obtain ⟨rfl, rfl⟩ := h
        intro k x hk hx
        cases k with
        | zero => omega
        | succ k =>
          simp only [List.getElem?_cons_succ] at hx
          have hxl : x ∈ l := List.getElem?_mem hx
          exact lt_of_le_of_lt (lastArgmax_le hl x hxl) (lt_of_not_le hle)

/-- The result of one iteration of the `UCT` loop: the updated (sub)tree, the
terminal state reached by the rollout, the next draw position, and the list of
node snapshots on which `UCTSelectChild` was invoked during the iteration. -/
structure IterRes (S M : Type) where
  tree : MTree M
  term : S
  pos : ℕ
  log : List (MTree M)

/-- Replace the children list of a node (the in-place mutation of
`self.childNodes` seen through the selected child's update). -/
def MTree.setChildren {M : Type} : MTree M → List (MTree M) → MTree M
  | .mk mv w v u p c lr _, ch => .mk mv w v u p c lr ch

/-- The effect of `AddChild` on the parent node: remove the move from
`untriedMoves` and append the new child. -/
def MTree.expandStep {M : Type} [DecidableEq M] : MTree M → M → MTree M → MTree M
  | .mk mv w v u p c lr ch, m, child => .mk mv w v (u.erase m) p c lr (ch ++ [child])

theorem MTree.sizeOf_lt_of_mem_childNodes {M : Type} [SizeOf M]
    {c t : MTree M} (h : c ∈ t.childNodes) : sizeOf c < sizeOf t := by
  cases t with
  | mk mv w v u p ct lr ch =>
    simp only [MTree.childNodes] at h
    have hlt := List.sizeOf_lt_of_mem h
    simp only [MTree.mk.sizeOf_spec]
    omega

/-- One iteration of the `for i in range(itermax)` body of `UCT`: the select
loop (descending through `UCTSelectChild` while the node is fully expanded and
has children), the expansion step, the rollout, and backpropagation (performed
on the way back up the recursion, so that every node on the path, each with its
own `playerJustMoved`, is updated with the terminal result).  The child chosen
by selection is the object denoted by `sorted(childNodes, key = score)[-1]`,
i.e. the entry of `childNodes` at the last index attaining the maximal score
(`pySortedLast_eq_lastArgmax` below); the generic score parameter is
instantiated with the blended UCB1 score `uctScore` in `UCT`. -/
def uctIter {S M K : Type} [DecidableEq M] [LinearOrder K] (g : Game S M)
    (rnd : ℕ → ℕ) (score : MTree M → MTree M → K) (fuel : ℕ) :
    MTree M → S → ℕ → IterRes S M
  | t, s, pos =>
    if hun : t.untriedMoves.isEmpty then
      if hch : t.childNodes.isEmpty then
        -- node has no untried moves and no children: selection and expansion
        -- are both skipped; rollout from the current state, then update.
        let ro := rollout g rnd fuel s pos
        ⟨t.Update (g.getResult ro.1 t.playerJustMoved), ro.1, ro.2, []⟩
      else
        -- Select
        have hsome : (lastArgmax (score t) t.childNodes).isSome :=
          lastArgmax_isSome _ (by simpa using hch)
        let pr := (lastArgmax (score t) t.childNodes).get hsome
        have hmem : pr.2 ∈ t.childNodes := lastArgmax_mem (Option.some_get hsome).symm
        let sub := uctIter g rnd score fuel pr.2 (pr.2.move.elim s (g.doMove s)) pos
        let res := g.getResult sub.term t.playerJustMoved
        ⟨(t.setChildren (t.childNodes.set pr.1 sub.tree)).Update res,
          sub.term, sub.pos, t :: sub.log⟩
    else
      -- Expand
      have hne : t.untriedMoves ≠ [] := by simpa using hun
      let m := pyChoice rnd pos t.untriedMoves hne
      let s2 := g.doMove s m
      let child := newNode g (some m) s2
      let ro := rollout g rnd fuel s2 (pos + 1)
      let child2 := child.Update (g.getResult ro.1 child.playerJustMoved)
      ⟨(t.expandStep m child2).Update (g.getResult ro.1 t.playerJustMoved),
        ro.1, ro.2, []⟩
  termination_by t _ _ => sizeOf t
  decreasing_by exact MTree.sizeOf_lt_of_mem_childNodes hmem

/-- The result of the whole iteration loop: final tree, final draw position,
and the concatenated selection logs of all iterations. -/
structure LoopRes (S M : Type) where
  tree : MTree M
  pos : ℕ
  log : List (MTree M)

/-- The `for i in range(itermax)` loop of `UCT`: every iteration restarts from
a clone of the root state (pure value `rootstate` here) and from the current
root of the tree. -/
def uctLoop {S M K : Type} [DecidableEq M] [LinearOrder K] (g : Game S M)
    (rnd : ℕ → ℕ) (score : MTree M → MTree M → K) (fuel : ℕ) (rootstate : S) :
    ℕ → MTree M → ℕ → LoopRes S M
  | 0, t, pos => ⟨t, pos, []⟩
  | n + 1, t, pos =>
    let r := uctIter g rnd score fuel t rootstate pos
    let rest := uctLoop g rnd score fuel rootstate n r.tree r.pos
    ⟨rest.tree, rest.pos, r.log ++ rest.log⟩

/-- The full search state after `UCT(rootstate, itermax, ...)` has run its
loop, starting from `rootnode = Node(state = rootstate)` and draw position 0,
with the in-loop selection score `uctScore selected_std_function std_weight`. -/
noncomputable def uctSearch {S M : Type} [DecidableEq M] (g : Game S M)
    (rnd : ℕ → ℕ) (fuel : ℕ) (rootstate : S) (itermax : ℕ)
    (selected_std_function : MTree M → ℝ) (std_weight : ℝ) : LoopRes S M :=
  uctLoop g rnd (fun p c => uctScore selected_std_function std_weight p c) fuel
    rootstate itermax (newNode g none rootstate) 0

/-- `UCT(rootstate, itermax, verbose, selected_std_function, std_weight)`:
run the loop, then return
`sorted(rootnode.childNodes, key = lambda c: c.visits)[-1].move`
(`none` models the `IndexError` raised when the root has no children; the
`verbose` printing has no effect on the returned move and is not modelled). -/
noncomputable def UCT {S M : Type} [DecidableEq M] (g : Game S M)
    (rnd : ℕ → ℕ) (fuel : ℕ) (rootstate : S) (itermax : ℕ)
    (selected_std_function : MTree M → ℝ) (std_weight : ℝ) : Option M :=
  (pySortedLast (fun c => c.visits)
      (uctSearch g rnd fuel rootstate itermax selected_std_function
        std_weight).tree.childNodes).bind MTree.move

section StableSortLast

variable {α K : Type} [LinearOrder K]

theorem lastArgmax_filter_getLast {key : α → K} {l : List α} {j : ℕ} {b : α}
    (h : lastArgmax key l = some (j, b)) :
    (l.filter (fun x => decide (key x = key b))).getLast? = some b := by
  induction l generalizing j b with
  | nil => simp [lastArgmax] at h
  | cons a l ih =>
    simp only [lastArgmax] at h
    cases hl : lastArgmax key l with
    | none =>
      have hnil : l = [] := (lastArgmax_eq_none key).mp hl
      subst hnil
      rw [hl] at h
      simp only [Option.some.injEq, Prod.mk.injEq] at h
      obtain ⟨rfl, rfl⟩ := h
      simp
    | some q =>
      obtain ⟨j2, b2⟩ := q
      rw [hl] at h
      by_cases hle : key a ≤ key b2 <;> simp only [hle, if_true, if_false,
        Option.some.injEq, Prod.mk.injEq] at h
      · obtain ⟨rfl, rfl⟩ := h
        have hlast := ih hl
        cases hfl : l.filter (fun x => decide (key x = key b2)) with
        | nil => rw [hfl] at hlast; simp at hlast
        | cons c cs =>
          rw [List.filter_cons, hfl]
          rw [hfl] at hlast
          split
          · rw [List.getLast?_cons_cons]
            exact hlast
          · exact hlast
      · obtain ⟨rfl, rfl⟩ := h
        have hnil : l.filter (fun x => decide (key x = key a)) = [] := by
          rw [List.filter_eq_nil_iff]
          intro x hx
          have hxb := lastArgmax_le hl x hx
          simp only [decide_eq_true_eq]
          exact ne_of_lt (lt_of_le_of_lt hxb (lt_of_not_le hle))
        rw [List.filter_cons, hnil]
        simp

theorem pairwise_getLast_ge {le : α → α → Bool} :
    ∀ {l : List α} {y : α}, l.Pairwise (fun a c => le a c = true) →
      l.getLast? = some y → ∀ x ∈ l, x = y ∨ le x y = true := by
  intro l
  induction l with
  | nil => simp
  | cons a l ih =>
    intro y hp hy x hx
    cases l with
    | nil =>
      simp only [List.getLast?_singleton, Option.some.injEq] at hy
      subst hy
      simp only [List.mem_singleton] at hx
      exact Or.inl hx
    | cons c cs =>
      rw [List.getLast?_cons_cons] at hy
      have hp2 := List.pairwise_cons.mp hp
      rcases List.mem_cons.mp hx with rfl | hx2
      · exact Or.inr (hp2.1 y (List.mem_of_getLast?_eq_some hy))
      · exact ih hp2.2 hy x hx2

/-- The last element of Python's stable ascending sort by a key is exactly the
element at the last index attaining the maximal key: the tie-break of
`sorted(l, key)[-1]` selects the tied element occurring last in `l`. -/
theorem pySortedLast_eq_lastArgmax (key : α → K) (l : List α) :
    pySortedLast key l = (lastArgmax key l).map (fun q => q.2) := by
  cases hl : lastArgmax key l with
  | none =>
    have hnil : l = [] := (lastArgmax_eq_none key).mp hl
    subst hnil
    simp [pySortedLast]
  | some q =>
    obtain ⟨j, b⟩ := q
    have hlne : l ≠ [] := by
      intro hcon
      subst hcon
      simp [lastArgmax] at hl
    set le := fun a c : α => decide (key a ≤ key c) with hledef
    have htrans : ∀ a c d : α, le a c → le c d → le a d := by
      intro a c d h1 h2
      simp only [hledef, decide_eq_true_eq] at h1 h2 ⊢
      exact le_trans h1 h2
    have htotal : ∀ a c : α, le a c || le c a := by
      intro a c
      simp only [hledef]
      rcases le_total (key a) (key c) with h | h <;> simp [h]
    have hperm : List.Perm (l.mergeSort le) l := List.mergeSort_perm l le
    have hmsne : l.mergeSort le ≠ [] := by
      intro hcon
      have hlen := hperm.length_eq
      rw [hcon] at hlen
      exact hlne (List.length_eq_zero.mp hlen.symm)
    obtain ⟨y, hy⟩ : ∃ y, (l.mergeSort le).getLast? = some y :=
      ⟨_, List.getLast?_eq_getLast _ hmsne⟩
    have hymemms : y ∈ l.mergeSort le := List.mem_of_getLast?_eq_some hy
    have hymem : y ∈ l := hperm.mem_iff.mp hymemms
    have hsorted : (l.mergeSort le).Pairwise (fun a c => le a c = true) :=
      List.sorted_mergeSort htrans htotal l
    have hmax : ∀ x ∈ l, key x ≤ key y := by
      intro x hx
      rcases pairwise_getLast_ge hsorted hy x (hperm.mem_iff.mpr hx) with rfl | hxy
      · exact le_refl _
      · simpa [hledef, decide_eq_true_eq] using hxy
    have hkey : key y = key b :=
      le_antisymm (lastArgmax_le hl y hymem) (hmax b (lastArgmax_mem hl))
    set pf := fun x => decide (key x = key b) with hpfdef
    have hfilterpair : (l.filter pf).Pairwise (fun a c => le a c = true) := by
      apply List.pairwise_of_forall_mem_list
      intro x hx z hz
      have hxk : key x = key b := by
        have := List.of_mem_filter hx
        simpa [hpfdef, decide_eq_true_eq] using this
      have hzk : key z = key b := by
        have := List.of_mem_filter hz
        simpa [hpfdef, decide_eq_true_eq] using this
      simp [hledef, hxk, hzk]
    have hsubms : List.Sublist (l.filter pf) (l.mergeSort le) :=
      List.sublist_mergeSort htrans htotal hfilterpair (List.filter_sublist l)
    have hff : (l.filter pf).filter pf = l.filter pf :=
      List.filter_eq_self.mpr (fun a ha => List.of_mem_filter ha)
    have hcsub : List.Sublist (l.filter pf) ((l.mergeSort le).filter pf) := by
      have h2 := hsubms.filter pf
      rwa [hff] at h2
    have hpermf : List.Perm ((l.mergeSort le).filter pf) (l.filter pf) := hperm.filter pf
    have heqf : l.filter pf = (l.mergeSort le).filter pf :=
      hcsub.eq_of_length hpermf.length_eq.symm
    have hdecomp : (l.mergeSort le).dropLast ++ [y] = l.mergeSort le :=
      List.dropLast_append_getLast? y hy
    have hpy : pf y = true := by simp [hpfdef, hkey]
    have hlastms : ((l.mergeSort le).filter pf).getLast? = some y := by
      conv_lhs => rw [← hdecomp]
      rw [List.filter_append]
      have h1 : List.filter pf [y] = [y] := by simp [hpy]
      rw [h1]
      exact List.getLast?_concat _
    have hlastfc : (l.filter pf).getLast? = some b := lastArgmax_filter_getLast hl
    rw [heqf, hlastms] at hlastfc
    have hyb : y = b := Option.some.inj hlastfc
    subst hyb
    simp only [pySortedLast, hl, Option.map_some]
    rw [← hledef]
    exact hy

end StableSortLast

section NodeLemmas

variable {S M : Type}

@[simp] theorem MTree.Update_move (t : MTree M) (r : ℚ) : (t.Update r).move = t.move := by
  cases t; rfl

@[simp] theorem MTree.Update_wins (t : MTree M) (r : ℚ) :
    (t.Update r).wins = t.wins + r := by
  cases t; rfl

@[simp] theorem MTree.Update_visits (t : MTree M) (r : ℚ) :
    (t.Update r).visits = t.visits + 1 := by
  cases t; rfl

@[simp] theorem MTree.Update_untriedMoves (t : MTree M) (r : ℚ) :
    (t.Update r).untriedMoves = t.untriedMoves := by
  cases t; rfl

@[simp] theorem MTree.Update_playerJustMoved (t : MTree M) (r : ℚ) :
    (t.Update r).playerJustMoved = t.playerJustMoved := by
  cases t; rfl

@[simp] theorem MTree.Update_counter (t : MTree M) (r : ℚ) :
    (t.Update r).rollouts_counter = counterIncr t.rollouts_counter r := by
  cases t; rfl

@[simp] theorem MTree.Update_last (t : MTree M) (r : ℚ) :
    (t.Update r).last_rollout_res = some r := by
  cases t; rfl

@[simp] theorem MTree.Update_childNodes (t : MTree M) (r : ℚ) :
    (t.Update r).childNodes = t.childNodes := by
  cases t; rfl

@[simp] theorem MTree.setChildren_move (t : MTree M) (ch : List (MTree M)) :
    (t.setChildren ch).move = t.move := by
  cases t; rfl

@[simp] theorem MTree.setChildren_wins (t : MTree M) (ch : List (MTree M)) :
    (t.setChildren ch).wins = t.wins := by
  cases t; rfl

@[simp] theorem MTree.setChildren_visits (t : MTree M) (ch : List (MTree M)) :
    (t.setChildren ch).visits = t.visits := by
  cases t; rfl

@[simp] theorem MTree.setChildren_untriedMoves (t : MTree M) (ch : List (MTree M)) :
    (t.setChildren ch).untriedMoves = t.untriedMoves := by
  cases t; rfl

@[simp] theorem MTree.setChildren_playerJustMoved (t : MTree M) (ch : List (MTree M)) :
    (t.setChildren ch).playerJustMoved = t.playerJustMoved := by
  cases t; rfl

@[simp] theorem MTree.setChildren_counter (t : MTree M) (ch : List (MTree M)) :
    (t.setChildren ch).rollouts_counter = t.rollouts_counter := by
  cases t; rfl

@[simp] theorem MTree.setChildren_childNodes (t : MTree M) (ch : List (MTree M)) :
    (t.setChildren ch).childNodes = ch := by
  cases t; rfl

@[simp] theorem newNode_move (g : Game S M) (mv : Option M) (s : S) :
    (newNode g mv s).move = mv := rfl

@[simp] theorem newNode_wins (g : Game S M) (mv : Option M) (s : S) :
    (newNode g mv s).wins = 0 := rfl

@[simp] theorem newNode_visits (g : Game S M) (mv : Option M) (s : S) :
    (newNode g mv s).visits = 0 := rfl

@[simp] theorem newNode_untriedMoves (g : Game S M) (mv : Option M) (s : S) :
    (newNode g mv s).untriedMoves = g.getMoves s := rfl

@[simp] theorem newNode_playerJustMoved (g : Game S M) (mv : Option M) (s : S) :
    (newNode g mv s).playerJustMoved = g.playerJustMoved s := rfl

@[simp] theorem newNode_counter (g : Game S M) (mv : Option M) (s : S) :
    (newNode g mv s).rollouts_counter = [] := rfl

@[simp] theorem newNode_last (g : Game S M) (mv : Option M) (s : S) :
    (newNode g mv s).last_rollout_res = none := rfl

@[simp] theorem newNode_childNodes (g : Game S M) (mv : Option M) (s : S) :
    (newNode g mv s).childNodes = [] := rfl


variable [DecidableEq M]

@[simp] theorem MTree.expandStep_move (t : MTree M) (m : M) (c : MTree M) :
    (t.expandStep m c).move = t.move := by
  cases t; rfl

@[simp] theorem MTree.expandStep_wins (t : MTree M) (m : M) (c : MTree M) :
    (t.expandStep m c).wins = t.wins := by
  cases t; rfl

@[simp] theorem MTree.expandStep_visits (t : MTree M) (m : M) (c : MTree M) :
    (t.expandStep m c).visits = t.visits := by
  cases t; rfl

@[simp] theorem MTree.expandStep_untriedMoves (t : MTree M) (m : M) (c : MTree M) :
    (t.expandStep m c).untriedMoves = t.untriedMoves.erase m := by
  cases t; rfl

@[simp] theorem MTree.expandStep_playerJustMoved (t : MTree M) (m : M) (c : MTree M) :
    (t.expandStep m c).playerJustMoved = t.playerJustMoved := by
  cases t; rfl

@[simp] theorem MTree.expandStep_counter (t : MTree M) (m : M) (c : MTree M) :
    (t.expandStep m c).rollouts_counter = t.rollouts_counter := by
  cases t; rfl

@[simp] theorem MTree.expandStep_childNodes (t : MTree M) (m : M) (c : MTree M) :
    (t.expandStep m c).childNodes = t.childNodes ++ [c] := by
  cases t; rfl

end NodeLemmas

section CounterLemmas

theorem counterTotal_incr (l : List (ℚ × ℕ)) (r : ℚ) :
    counterTotal (counterIncr l r) = counterTotal l + 1 := by
  induction l with
  | nil => simp [counterIncr, counterTotal]
  | cons a l ih =>
    obtain ⟨k, v⟩ := a
    by_cases h : k = r
    · simp [counterIncr, h, counterTotal]
      omega
    · simp [counterIncr, h, counterTotal] at ih ⊢
      omega

theorem counterIncr_ne_nil (l : List (ℚ × ℕ)) (r : ℚ) : counterIncr l r ≠ [] := by
  cases l with
  | nil => simp [counterIncr]
  | cons a l =>
    obtain ⟨k, v⟩ := a
    by_cases h : k = r <;> simp [counterIncr, h]

theorem counterCount_incr (l : List (ℚ × ℕ)) (r : ℚ) :
    counterCount (counterIncr l r) r = counterCount l r + 1 := by
  induction l with
  | nil => simp [counterIncr, counterCount]
  | cons a l ih =>
    obtain ⟨k, v⟩ := a
    by_cases h : k = r
    · subst h
      simp [counterIncr, counterCount]
      omega
    · simp [counterIncr, counterCount, h] at ih ⊢
      omega

end CounterLemmas

theorem sum_map_set {β : Type} (f : β → ℕ) :
    ∀ (l : List β) (i : ℕ) (x : β), i < l.length →
      ((l.set i x).map f).sum + f (l.getD i x) = (l.map f).sum + f x := by
  intro l
  induction l with
  | nil => intro i x hi; simp at hi
  | cons a l ih =>
    intro i x hi
    cases i with
    | zero => simp; omega
    | succ i =>
      have hi2 : i < l.length := by simpa using hi
      have := ih i x hi2
      simp only [List.set_cons_succ, List.map_cons, List.sum_cons, List.getD_cons_succ]
      omega

section IterLemmas

variable {S M K : Type} [DecidableEq M] [LinearOrder K] (g : Game S M)
  (rnd : ℕ → ℕ) (score : MTree M → MTree M → K) (fuel : ℕ)

theorem uctIter_terminal {t : MTree M} (s : S) (pos : ℕ)
    (hun : t.untriedMoves = []) (hch : t.childNodes = []) :
    uctIter g rnd score fuel t s pos =
      ⟨t.Update (g.getResult (rollout g rnd fuel s pos).1 t.playerJustMoved),
        (rollout g rnd fuel s pos).1, (rollout g rnd fuel s pos).2, []⟩ := by
  rw [uctIter]
  simp [hun, hch]

theorem uctIter_select {t : MTree M} (s : S) (pos : ℕ)
    (hun : t.untriedMoves = []) {j : ℕ} {c : MTree M}
    (hsel : lastArgmax (score t) t.childNodes = some (j, c)) :
    uctIter g rnd score fuel t s pos =
      ⟨(t.setChildren (t.childNodes.set j
            (uctIter g rnd score fuel c (c.move.elim s (g.doMove s)) pos).tree)).Update
          (g.getResult (uctIter g rnd score fuel c (c.move.elim s (g.doMove s)) pos).term
            t.playerJustMoved),
        (uctIter g rnd score fuel c (c.move.elim s (g.doMove s)) pos).term,
        (uctIter g rnd score fuel c (c.move.elim s (g.doMove s)) pos).pos,
        t :: (uctIter g rnd score fuel c (c.move.elim s (g.doMove s)) pos).log⟩ := by
  have hch : t.childNodes ≠ [] := by
    intro hcon
    rw [hcon] at hsel
    simp [lastArgmax] at hsel
  rw [uctIter]
  simp [hun, hch, hsel]

theorem uctIter_expand {t : MTree M} (s : S) (pos : ℕ)
    (hun : t.untriedMoves ≠ []) :
    uctIter g rnd score fuel t s pos =
      ⟨(t.expandStep (pyChoice rnd pos t.untriedMoves hun)
            ((newNode g (some (pyChoice rnd pos t.untriedMoves hun))
                (g.doMove s (pyChoice rnd pos t.untriedMoves hun))).Update
              (g.getResult
                (rollout g rnd fuel
                  (g.doMove s (pyChoice rnd pos t.untriedMoves hun)) (pos + 1)).1
                (g.playerJustMoved
                  (g.doMove s (pyChoice rnd pos t.untriedMoves hun)))))).Update
          (g.getResult
            (rollout g rnd fuel
              (g.doMove s (pyChoice rnd pos t.untriedMoves hun)) (pos + 1)).1
            t.playerJustMoved),
        (rollout g rnd fuel
          (g.doMove s (pyChoice rnd pos t.untriedMoves hun)) (pos + 1)).1,
        (rollout g rnd fuel
          (g.doMove s (pyChoice rnd pos t.untriedMoves hun)) (pos + 1)).2, []⟩ := by
  rw [uctIter]
  simp [hun, newNode, MTree.playerJustMoved]

omit [DecidableEq M] in
theorem lastArgmax_of_ne_nil {t : MTree M} (hch : t.childNodes ≠ []) :
    ∃ j c, lastArgmax (score t) t.childNodes = some (j, c) := by
  cases hq : lastArgmax (score t) t.childNodes with
  | none => exact absurd ((lastArgmax_eq_none _).mp hq) hch
  | some q => exact ⟨q.1, q.2, rfl⟩

theorem uctIter_tree_visits (t : MTree M) (s : S) (pos : ℕ) :
    (uctIter g rnd score fuel t s pos).tree.visits = t.visits + 1 := by
  by_cases hun : t.untriedMoves = []
  · by_cases hch : t.childNodes = []
    · rw [uctIter_terminal g rnd score fuel s pos hun hch]
      simp
    · obtain ⟨j, c, hsel⟩ := lastArgmax_of_ne_nil score hch
      rw [uctIter_select g rnd score fuel s pos hun hsel]
      simp
  · rw [uctIter_expand g rnd score fuel s pos hun]
    simp

theorem uctIter_tree_move (t : MTree M) (s : S) (pos : ℕ) :
    (uctIter g rnd score fuel t s pos).tree.move = t.move := by
  by_cases hun : t.untriedMoves = []
  · by_cases hch : t.childNodes = []
    · rw [uctIter_terminal g rnd score fuel s pos hun hch]
      simp
    · obtain ⟨j, c, hsel⟩ := lastArgmax_of_ne_nil score hch
      rw [uctIter_select g rnd score fuel s pos hun hsel]
      simp
  · rw [uctIter_expand g rnd score fuel s pos hun]
    simp

theorem uctIter_tree_childNodes_ne_nil (t : MTree M) (s : S) (pos : ℕ)
    (hnt : t.untriedMoves ≠ [] ∨ t.childNodes ≠ []) :
    (uctIter g rnd score fuel t s pos).tree.childNodes ≠ [] := by
  by_cases hun : t.untriedMoves = []
  · have hch : t.childNodes ≠ [] := by
      rcases hnt with h | h
      · exact absurd hun h
      · exact h
    obtain ⟨j, c, hsel⟩ := lastArgmax_of_ne_nil score hch
    rw [uctIter_select g rnd score fuel s pos hun hsel]
    simpa using hch
  · rw [uctIter_expand g rnd score fuel s pos hun]
    simp

theorem uctIter_tree_childSum (t : MTree M) (s : S) (pos : ℕ)
    (hnt : t.untriedMoves ≠ [] ∨ t.childNodes ≠ []) :
    ((uctIter g rnd score fuel t s pos).tree.childNodes.map MTree.visits).sum =
      (t.childNodes.map MTree.visits).sum + 1 := by
  by_cases hun : t.untriedMoves = []
  · have hch : t.childNodes ≠ [] := by
      rcases hnt with h | h
      · exact absurd hun h
      · exact h
    obtain ⟨j, c, hsel⟩ := lastArgmax_of_ne_nil score hch
    rw [uctIter_select g rnd score fuel s pos hun hsel]
    have hj : j < t.childNodes.length := by
      have h1 := lastArgmax_getElem? hsel
      exact (List.getElem?_eq_some.mp h1).1
    have hgd : t.childNodes.getD j
        (uctIter g rnd score fuel c (c.move.elim s (g.doMove s)) pos).tree = c := by
      rw [List.getD_eq_getElem?_getD, lastArgmax_getElem? hsel]
      rfl
    have hset := sum_map_set MTree.visits t.childNodes j
      (uctIter g rnd score fuel c (c.move.elim s (g.doMove s)) pos).tree hj
    rw [hgd] at hset
    have hcv := uctIter_tree_visits g rnd score fuel c (c.move.elim s (g.doMove s)) pos
    simp only [MTree.Update_childNodes, MTree.setChildren_childNodes]
    omega
  · rw [uctIter_expand g rnd score fuel s pos hun]
    simp

theorem uctIter_tree_moves_isSome (t : MTree M) (s : S) (pos : ℕ)
    (h : ∀ c ∈ t.childNodes, c.move.isSome) :
    ∀ c ∈ (uctIter g rnd score fuel t s pos).tree.childNodes, c.move.isSome := by
  by_cases hun : t.untriedMoves = []
  · by_cases hch : t.childNodes = []
    · rw [uctIter_terminal g rnd score fuel s pos hun hch]
      simp [hch]
    · obtain ⟨j, c, hsel⟩ := lastArgmax_of_ne_nil score hch
      rw [uctIter_select g rnd score fuel s pos hun hsel]
      simp only [MTree.Update_childNodes, MTree.setChildren_childNodes]
      intro x hx
      rcases List.mem_or_eq_of_mem_set hx with hx2 | rfl
      · exact h x hx2
      · rw [uctIter_tree_move]
        exact h c (lastArgmax_mem hsel)
  · rw [uctIter_expand g rnd score fuel s pos hun]
    simp only [MTree.Update_childNodes, MTree.expandStep_childNodes]
    intro x hx
    rcases List.mem_append.mp hx with hx2 | hx2
    · exact h x hx2
    · simp only [List.mem_singleton] at hx2
      subst hx2
      simp

end IterLemmas

section LoopLemmas

variable {S M K : Type} [DecidableEq M] [LinearOrder K] (g : Game S M)
  (rnd : ℕ → ℕ) (score : MTree M → MTree M → K) (fuel : ℕ) (s0 : S)

theorem uctLoop_visits_sum (n : ℕ) :
    ∀ (t : MTree M) (pos : ℕ), t.untriedMoves ≠ [] ∨ t.childNodes ≠ [] →
      (uctLoop g rnd score fuel s0 n t pos).tree.visits = t.visits + n ∧
      ((uctLoop g rnd score fuel s0 n t pos).tree.childNodes.map MTree.visits).sum =
        (t.childNodes.map MTree.visits).sum + n ∧
      ((uctLoop g rnd score fuel s0 n t pos).tree.untriedMoves ≠ [] ∨
        (uctLoop g rnd score fuel s0 n t pos).tree.childNodes ≠ []) := by
  induction n with
  | zero =>
    intro t pos hnt
    exact ⟨rfl, rfl, hnt⟩
  | succ n ih =>
    intro t pos hnt
    have h1 := uctIter_tree_visits g rnd score fuel t s0 pos
    have h2 := uctIter_tree_childSum g rnd score fuel t s0 pos hnt
    have h3 := uctIter_tree_childNodes_ne_nil g rnd score fuel t s0 pos hnt
    have ihh := ih (uctIter g rnd score fuel t s0 pos).tree
      (uctIter g rnd score fuel t s0 pos).pos (Or.inr h3)
    obtain ⟨ihv, ihs, ihnt⟩ := ihh
    simp only [uctLoop]
    refine ⟨by omega, by omega, ihnt⟩

theorem uctLoop_moves_isSome (n : ℕ) :
    ∀ (t : MTree M) (pos : ℕ), (∀ c ∈ t.childNodes, c.move.isSome) →
      ∀ c ∈ (uctLoop g rnd score fuel s0 n t pos).tree.childNodes, c.move.isSome := by
  induction n with
  | zero => intro t pos h; exact h
  | succ n ih =>
    intro t pos h
    have hstep := uctIter_tree_moves_isSome g rnd score fuel t s0 pos h
    have := ih (uctIter g rnd score fuel t s0 pos).tree
      (uctIter g rnd score fuel t s0 pos).pos hstep
    simpa only [uctLoop] using this

theorem uctLoop_terminal_root (n : ℕ) :
    ∀ (t : MTree M) (pos : ℕ), t.untriedMoves = [] → t.childNodes = [] →
      (uctLoop g rnd score fuel s0 n t pos).tree.untriedMoves = [] ∧
      (uctLoop g rnd score fuel s0 n t pos).tree.childNodes = [] := by
  induction n with
  | zero => intro t pos hu hc; exact ⟨hu, hc⟩
  | succ n ih =>
    intro t pos hu hc
    have hstep := uctIter_terminal g rnd score fuel s0 pos hu hc
    have h1 : (uctIter g rnd score fuel t s0 pos).tree.untriedMoves = [] := by
      rw [hstep]; simpa using hu
    have h2 : (uctIter g rnd score fuel t s0 pos).tree.childNodes = [] := by
      rw [hstep]; simpa using hc
    have := ih (uctIter g rnd score fuel t s0 pos).tree
      (uctIter g rnd score fuel t s0 pos).pos h1 h2
    simpa only [uctLoop] using this

end LoopLemmas

section SearchTheorems

variable {S M : Type} [DecidableEq M]

/-- C3: for every root state with at least one legal move and every iteration
budget `N ≥ 1`, after the `UCT` loop completes the root's `visits` equals `N`
and the sum of `visits` over the root's direct children also equals `N` (each
iteration backpropagates through exactly one direct child of the root and
through the root itself). -/
theorem uct_root_visits_eq_budget (g : Game S M) (rnd : ℕ → ℕ) (fuel : ℕ)
    (s : S) (N : ℕ) (f : MTree M → ℝ) (w : ℝ)
    (hs : g.getMoves s ≠ []) (hN : 1 ≤ N) :
    (uctSearch g rnd fuel s N f w).tree.visits = N ∧
    ((uctSearch g rnd fuel s N f w).tree.childNodes.map MTree.visits).sum = N := by
  have hroot : (newNode g none s).untriedMoves ≠ [] ∨
      (newNode g none s).childNodes ≠ [] := Or.inl (by simpa using hs)
  have h := uctLoop_visits_sum g rnd
    (fun p c => uctScore f w p c) fuel s N (newNode g none s) 0 hroot
  obtain ⟨h1, h2, _⟩ := h
  constructor
  · simpa [uctSearch] using h1
  · simpa [uctSearch] using h2

/-- C1: for every search on a root state with at least one legal move and
iteration budget `N ≥ 1`, the move returned by `UCT` is the move of a direct
child of the root whose `visits` count is maximal among all root children. -/
theorem UCT_returns_most_visited_root_child (g : Game S M) (rnd : ℕ → ℕ)
    (fuel : ℕ) (s : S) (N : ℕ) (f : MTree M → ℝ) (w : ℝ)
    (hs : g.getMoves s ≠ []) (hN : 1 ≤ N) :
    ∃ (m : M) (c : MTree M),
      UCT g rnd fuel s N f w = some m ∧
      c ∈ (uctSearch g rnd fuel s N f w).tree.childNodes ∧
      c.move = some m ∧
      ∀ c2 ∈ (uctSearch g rnd fuel s N f w).tree.childNodes,
        c2.visits ≤ c.visits := by
  have hroot : (newNode g none s).untriedMoves ≠ [] ∨
      (newNode g none s).childNodes ≠ [] := Or.inl (by simpa using hs)
  have hsum := (uctLoop_visits_sum g rnd
    (fun p c => uctScore f w p c) fuel s N (newNode g none s) 0 hroot).2.1
  have hch : (uctSearch g rnd fuel s N f w).tree.childNodes ≠ [] := by
    intro hcon
    rw [uctSearch] at hcon
    rw [hcon] at hsum
    simp at hsum
    omega
  obtain ⟨j, c, hsel⟩ := lastArgmax_of_ne_nil
    ((fun _ c => c.visits) : MTree M → MTree M → ℕ) hch
  have hps := pySortedLast_eq_lastArgmax
    (fun c : MTree M => c.visits) (uctSearch g rnd fuel s N f w).tree.childNodes
  rw [hsel] at hps
  have hmoves : ∀ c ∈ (uctSearch g rnd fuel s N f w).tree.childNodes,
      c.move.isSome := by
    rw [uctSearch]
    exact uctLoop_moves_isSome g rnd (fun p c => uctScore f w p c) fuel s N
      (newNode g none s) 0 (by simp)
  obtain ⟨m, hm⟩ := Option.isSome_iff_exists.mp (hmoves c (lastArgmax_mem hsel))
  refine ⟨m, c, ?_, lastArgmax_mem hsel, hm, fun c2 h2 => lastArgmax_le hsel c2 h2⟩
  rw [UCT, hps]
  simpa using hm

/-- C5: for every state whose legal-move set is empty (a terminal root),
calling `UCT` with any budget `N ≥ 1` fails with an error (modelled by `none`,
the `IndexError` of `sorted([])[-1]`) rather than returning a move. -/
theorem UCT_terminal_root_fails (g : Game S M) (rnd : ℕ → ℕ) (fuel : ℕ)
    (s : S) (N : ℕ) (f : MTree M → ℝ) (w : ℝ)
    (hs : g.getMoves s = []) (hN : 1 ≤ N) :
    UCT g rnd fuel s N f w = none := by
  have hroot := uctLoop_terminal_root g rnd
    (fun p c => uctScore f w p c) fuel s N (newNode g none s) 0
    (by simpa using hs) (by simp)
  rw [UCT]
  rw [uctSearch, hroot.2]
  simp [pySortedLast]

end SearchTheorems

/-- The property `P` holds at every node of the tree: at the root of the tree
and, recursively, at every node of every subtree. -/
inductive TreeAll {M : Type} (P : MTree M → Prop) : MTree M → Prop where
  | node (t : MTree M) (hp : P t) (hch : ∀ c ∈ t.childNodes, TreeAll P c) :
      TreeAll P t

theorem TreeAll.self {M : Type} {P : MTree M → Prop} {t : MTree M}
    (h : TreeAll P t) : P t := by
  cases h with
  | node t hp hch => exact hp

theorem TreeAll.child {M : Type} {P : MTree M → Prop} {t : MTree M}
    (h : TreeAll P t) : ∀ c ∈ t.childNodes, TreeAll P c := by
  cases h with
  | node t hp hch => exact hch

/-- The bookkeeping invariant of a node: the total count of its
rollout-outcome distribution equals its `visits`, and a node that has been
visited at least once has recorded at least one outcome (it has been
backpropagated at least once). -/
def CounterInv {M : Type} (u : MTree M) : Prop :=
  counterTotal u.rollouts_counter = u.visits ∧
    (1 ≤ u.visits → u.rollouts_counter ≠ [])

theorem CounterInv_update {M : Type} {t : MTree M} (h : CounterInv t) (r : ℚ) :
    CounterInv (t.Update r) := by
  obtain ⟨h1, _⟩ := h
  constructor
  · rw [MTree.Update_counter, MTree.Update_visits, counterTotal_incr, h1]
  · intro _
    rw [MTree.Update_counter]
    exact counterIncr_ne_nil _ _

section InvariantLemmas

variable {S M K : Type} [DecidableEq M] [LinearOrder K] (g : Game S M)
  (rnd : ℕ → ℕ) (score : MTree M → MTree M → K) (fuel : ℕ)

omit [DecidableEq M] in
theorem MTree.one_le_sizeOf (t : MTree M) : 1 ≤ sizeOf t := by
  cases t with
  | mk mv w v u p c lr ch =>
    simp only [MTree.mk.sizeOf_spec]
    omega

theorem uctIter_select_log_pos (n : ℕ) :
    ∀ (t : MTree M), sizeOf t ≤ n → ∀ (s : S) (pos : ℕ),
      (∀ c ∈ t.childNodes, TreeAll (fun u => 1 ≤ u.visits) c) →
      (∀ c ∈ (uctIter g rnd score fuel t s pos).tree.childNodes,
          TreeAll (fun u => 1 ≤ u.visits) c) ∧
      (∀ p ∈ (uctIter g rnd score fuel t s pos).log,
          ∀ c ∈ p.childNodes, 1 ≤ c.visits) := by
  induction n with
  | zero =>
    intro t ht
    have := MTree.one_le_sizeOf t
    omega
  | succ n ih =>
    intro t ht s pos hbelow
    by_cases hun : t.untriedMoves = []
    · by_cases hch : t.childNodes = []
      · rw [uctIter_terminal g rnd score fuel s pos hun hch]
        refine ⟨?_, ?_⟩
        · intro c hc
          simp only [MTree.Update_childNodes] at hc
          exact hbelow c hc
        · intro p hp
          simp at hp
      · obtain ⟨j, c, hsel⟩ := lastArgmax_of_ne_nil score hch
        have hcmem := lastArgmax_mem hsel
        have hsize : sizeOf c ≤ n := by
          have := MTree.sizeOf_lt_of_mem_childNodes hcmem
          omega
        have hrec := ih c hsize (c.move.elim s (g.doMove s)) pos
          (fun d hd => ((hbelow c hcmem).child) d hd)
        rw [uctIter_select g rnd score fuel s pos hun hsel]
        refine ⟨?_, ?_⟩
        · intro x hx
          simp only [MTree.Update_childNodes, MTree.setChildren_childNodes] at hx
          rcases List.mem_or_eq_of_mem_set hx with hx2 | rfl
          · exact hbelow x hx2
          · refine TreeAll.node _ ?_ hrec.1
            have := uctIter_tree_visits g rnd score fuel c
              (c.move.elim s (g.doMove s)) pos
            omega
        · intro p hp
          simp only [List.mem_cons] at hp
          rcases hp with rfl | hp
          · intro c2 hc2
            exact (hbelow c2 hc2).self
          · exact hrec.2 p hp
    · rw [uctIter_expand g rnd score fuel s pos hun]
      refine ⟨?_, ?_⟩
      · intro x hx
        simp only [MTree.Update_childNodes, MTree.expandStep_childNodes] at hx
        rcases List.mem_append.mp hx with hx2 | hx2
        · exact hbelow x hx2
        · simp only [List.mem_singleton] at hx2
          subst hx2
          exact TreeAll.node _ (by simp) (by simp)
      · intro p hp
        simp at hp

theorem uctIter_counterInv (n : ℕ) :
    ∀ (t : MTree M), sizeOf t ≤ n → ∀ (s : S) (pos : ℕ),
      TreeAll CounterInv t →
      TreeAll CounterInv (uctIter g rnd score fuel t s pos).tree := by
  induction n with
  | zero =>
    intro t ht
    have := MTree.one_le_sizeOf t
    omega
  | succ n ih =>
    intro t ht s pos hinv
    by_cases hun : t.untriedMoves = []
    · by_cases hch : t.childNodes = []
      · rw [uctIter_terminal g rnd score fuel s pos hun hch]
        refine TreeAll.node _ (CounterInv_update hinv.self _) ?_
        intro c hc
        simp only [MTree.Update_childNodes] at hc
        exact hinv.child c hc
      · obtain ⟨j, c, hsel⟩ := lastArgmax_of_ne_nil score hch
        have hcmem := lastArgmax_mem hsel
        have hsize : sizeOf c ≤ n := by
          have := MTree.sizeOf_lt_of_mem_childNodes hcmem
          omega
        have hrec := ih c hsize (c.move.elim s (g.doMove s)) pos
          (hinv.child c hcmem)
        rw [uctIter_select g rnd score fuel s pos hun hsel]
        have hself : CounterInv ((t.setChildren
            (t.childNodes.set j (uctIter g rnd score fuel c
              (c.move.elim s (g.doMove s)) pos).tree)).Update
            (g.getResult (uctIter g rnd score fuel c
              (c.move.elim s (g.doMove s)) pos).term t.playerJustMoved)) := by
          apply CounterInv_update
          obtain ⟨h1, h2⟩ := hinv.self
          constructor
          · simpa using h1
          · simpa using h2
        refine TreeAll.node _ hself ?_
        intro x hx
        simp only [MTree.Update_childNodes, MTree.setChildren_childNodes] at hx
        rcases List.mem_or_eq_of_mem_set hx with hx2 | rfl
        · exact hinv.child x hx2
        · exact hrec
    · rw [uctIter_expand g rnd score fuel s pos hun]
      have hself : CounterInv ((t.expandStep (pyChoice rnd pos t.untriedMoves hun)
          ((newNode g (some (pyChoice rnd pos t.untriedMoves hun))
              (g.doMove s (pyChoice rnd pos t.untriedMoves hun))).Update
            (g.getResult (rollout g rnd fuel
                (g.doMove s (pyChoice rnd pos t.untriedMoves hun)) (pos + 1)).1
              (g.playerJustMoved
                (g.doMove s (pyChoice rnd pos t.untriedMoves hun)))))).Update
          (g.getResult (rollout g rnd fuel
              (g.doMove s (pyChoice rnd pos t.untriedMoves hun)) (pos + 1)).1
            t.playerJustMoved)) := by
        apply CounterInv_update
        obtain ⟨h1, h2⟩ := hinv.self
        constructor
        · simpa using h1
        · simpa using h2
      refine TreeAll.node _ hself ?_
      intro x hx
      simp only [MTree.Update_childNodes, MTree.expandStep_childNodes] at hx
      rcases List.mem_append.mp hx with hx2 | hx2
      · exact hinv.child x hx2
      · simp only [List.mem_singleton] at hx2
        subst hx2
        refine TreeAll.node _ ?_ (by simp)
        constructor
        · simp [counterTotal, counterIncr]
        · intro _
          simp only [MTree.Update_counter, newNode_counter]
          exact counterIncr_ne_nil _ _

theorem uctLoop_select_log_pos (s0 : S) (n : ℕ) :
    ∀ (t : MTree M) (pos : ℕ),
      (∀ c ∈ t.childNodes, TreeAll (fun u => 1 ≤ u.visits) c) →
      (∀ c ∈ (uctLoop g rnd score fuel s0 n t pos).tree.childNodes,
          TreeAll (fun u => 1 ≤ u.visits) c) ∧
      (∀ p ∈ (uctLoop g rnd score fuel s0 n t pos).log,
          ∀ c ∈ p.childNodes, 1 ≤ c.visits) := by
  induction n with
  | zero =>
    intro t pos hbelow
    exact ⟨hbelow, by intro p hp; simp [uctLoop] at hp⟩
  | succ n ih =>
    intro t pos hbelow
    have hstep := uctIter_select_log_pos g rnd score fuel (sizeOf t) t
      le_rfl s0 pos hbelow
    have hrest := ih (uctIter g rnd score fuel t s0 pos).tree
      (uctIter g rnd score fuel t s0 pos).pos hstep.1
    refine ⟨by simpa only [uctLoop] using hrest.1, ?_⟩
    intro p hp
    simp only [uctLoop, List.mem_append] at hp
    rcases hp with hp | hp
    · exact hstep.2 p hp
    · exact hrest.2 p hp

theorem uctLoop_counterInv (s0 : S) (n : ℕ) :
    ∀ (t : MTree M) (pos : ℕ), TreeAll CounterInv t →
      TreeAll CounterInv (uctLoop g rnd score fuel s0 n t pos).tree := by
  induction n with
  | zero => intro t pos h; exact h
  | succ n ih =>
    intro t pos h
    have hstep := uctIter_counterInv g rnd score fuel (sizeOf t) t le_rfl s0 pos h
    have := ih (uctIter g rnd score fuel t s0 pos).tree
      (uctIter g rnd score fuel t s0 pos).pos hstep
    simpa only [uctLoop] using this

end InvariantLemmas

section InvariantTheorems

variable {S M : Type} [DecidableEq M]

/-- C4: during every UCT search, whenever `UCTSelectChild` is invoked (the
nodes recorded in the selection log), every node in the invoked node's
`childNodes` list has `visits ≥ 1` — a newly expanded child is backpropagated
in the same iteration that creates it, before any later selection step — and
therefore the divisions `c.wins / c.visits` and `2 * ln(self.visits) /
c.visits` in the selection score never divide by zero. -/
theorem uct_selection_children_positive (g : Game S M) (rnd : ℕ → ℕ)
    (fuel : ℕ) (s : S) (N : ℕ) (f : MTree M → ℝ) (w : ℝ) :
    (uctSearch g rnd fuel s N f w).log.Forall
      (fun p => p.childNodes.Forall
        (fun c => 1 ≤ c.visits ∧ ((c.visits : ℝ) ≠ 0))) := by
  rw [List.forall_iff_forall_mem]
  intro p hp
  rw [List.forall_iff_forall_mem]
  intro c hc
  have h := (uctLoop_select_log_pos g rnd
    (fun a b => uctScore f w a b) fuel s N (newNode g none s) 0
    (by simp)).2 p
  rw [uctSearch] at hp
  have hpos := h hp c hc
  refine ⟨hpos, ?_⟩
  have : (0 : ℕ) < c.visits := hpos
  exact_mod_cast Nat.pos_iff_ne_zero.mp this

/-- C8: for every node reachable in the tree after a UCT search, the sum of
all counts in its `rollouts_counter` equals its `visits`, and a node with
`visits ≥ 1` has a nonempty outcome distribution (it has been updated by
backpropagation at least once); the invariant holds after every `Update` and
is preserved by every iteration of the loop. -/
theorem uct_tree_counter_invariant (g : Game S M) (rnd : ℕ → ℕ)
    (fuel : ℕ) (s : S) (N : ℕ) (f : MTree M → ℝ) (w : ℝ) :
    TreeAll CounterInv (uctSearch g rnd fuel s N f w).tree := by
  rw [uctSearch]
  apply uctLoop_counterInv
  refine TreeAll.node _ ?_ (by simp)
  constructor
  · simp [counterTotal]
  · intro hcon
    simp at hcon

end InvariantTheorems

theorem lastArgmax_spec_idx {α K : Type} [LinearOrder K] {key : α → K}
    {l : List α} {j : ℕ} {c : α} (hsel : lastArgmax key l = some (j, c)) :
    ∃ hj : j < l.length, l.get ⟨j, hj⟩ = c ∧
      (∀ x ∈ l, key x ≤ key c) ∧
      ∀ (k : ℕ) (hk : k < l.length), j < k → key (l.get ⟨k, hk⟩) < key c := by
  have hje := lastArgmax_getElem? hsel
  obtain ⟨hj, hjv⟩ := List.getElem?_eq_some.mp hje
  refine ⟨hj, hjv, lastArgmax_le hsel, ?_⟩
  intro k hk hjk
  apply lastArgmax_lt_of_gt hsel k _ hjk
  exact List.getElem?_eq_getElem hk

section SelectionTheorems

variable {S M : Type}

/-- C2: for every node `p` with non-empty children, positive visits on `p` and
on every child, blend weight `w` and heuristic `f`, `UCTSelectChild` returns a
child of `p` that maximizes the blended score
`(1-w)*(wins/visits + sqrt(2*ln(p.visits)/visits)) + w*f(c)` over the
children of `p`. -/
theorem UCTSelectChild_maximizes_blended_score (f : MTree M → ℝ) (w : ℝ)
    (t : MTree M) (hch : t.childNodes ≠ []) (hv : 0 < t.visits)
    (hcv : ∀ c ∈ t.childNodes, 0 < c.visits) :
    ∃ c, t.UCTSelectChild f w = some c ∧ c ∈ t.childNodes ∧
      ∀ c2 ∈ t.childNodes, uctScore f w t c2 ≤ uctScore f w t c := by
  obtain ⟨j, c, hsel⟩ := lastArgmax_of_ne_nil
    (fun p c => uctScore f w p c) hch
  have hps := pySortedLast_eq_lastArgmax
    (fun c => uctScore f w t c) t.childNodes
  rw [hsel] at hps
  refine ⟨c, ?_, lastArgmax_mem hsel, fun c2 h2 => lastArgmax_le hsel c2 h2⟩
  rw [MTree.UCTSelectChild, hps]
  rfl

variable [DecidableEq M]

/-- C10: tie-breaking is deterministic and favors the most recently added
node: `UCTSelectChild` returns the child at the last index attaining the
maximal blended score (so among tied children the one occurring last in
`childNodes` insertion order wins), and the final move returned by `UCT` is
the move of the root child at the last index attaining the maximal visit
count — both because a stable sort is followed by taking the last element. -/
theorem uct_tie_break_favors_last (g : Game S M) (rnd : ℕ → ℕ) (fuel : ℕ)
    (f : MTree M → ℝ) (w : ℝ) (s : S) (N : ℕ) (t : MTree M)
    (hch : t.childNodes ≠ []) (hs : g.getMoves s ≠ []) (hN : 1 ≤ N) :
    (∃ (j : ℕ) (hj : j < t.childNodes.length),
      t.UCTSelectChild f w = some (t.childNodes.get ⟨j, hj⟩) ∧
      (∀ c ∈ t.childNodes,
        uctScore f w t c ≤ uctScore f w t (t.childNodes.get ⟨j, hj⟩)) ∧
      ∀ (k : ℕ) (hk : k < t.childNodes.length), j < k →
        uctScore f w t (t.childNodes.get ⟨k, hk⟩) <
          uctScore f w t (t.childNodes.get ⟨j, hj⟩)) ∧
    (∃ (j : ℕ) (hj : j < (uctSearch g rnd fuel s N f w).tree.childNodes.length),
      UCT g rnd fuel s N f w =
        ((uctSearch g rnd fuel s N f w).tree.childNodes.get ⟨j, hj⟩).move ∧
      (∀ c ∈ (uctSearch g rnd fuel s N f w).tree.childNodes,
        c.visits ≤ ((uctSearch g rnd fuel s N f w).tree.childNodes.get ⟨j, hj⟩).visits) ∧
      ∀ (k : ℕ) (hk : k < (uctSearch g rnd fuel s N f w).tree.childNodes.length),
        j < k →
        ((uctSearch g rnd fuel s N f w).tree.childNodes.get ⟨k, hk⟩).visits <
          ((uctSearch g rnd fuel s N f w).tree.childNodes.get ⟨j, hj⟩).visits) := by
  constructor
  · obtain ⟨j, c, hsel⟩ := lastArgmax_of_ne_nil
      (fun p c => uctScore f w p c) hch
    obtain ⟨hj, hjv, hmax, hlast⟩ := lastArgmax_spec_idx hsel
    have hps := pySortedLast_eq_lastArgmax
      (fun c => uctScore f w t c) t.childNodes
    rw [hsel] at hps
    refine ⟨j, hj, ?_, ?_, ?_⟩
    · rw [MTree.UCTSelectChild, hps, hjv]
      rfl
    · intro c2 h2
      rw [hjv]
      exact hmax c2 h2
    · intro k hk hjk
      rw [hjv]
      exact hlast k hk hjk
  · have hroot : (newNode g none s).untriedMoves ≠ [] ∨
        (newNode g none s).childNodes ≠ [] := Or.inl (by simpa using hs)
    have hsum := (uctLoop_visits_sum g rnd
      (fun p c => uctScore f w p c) fuel s N (newNode g none s) 0 hroot).2.1
    have hchr : (uctSearch g rnd fuel s N f w).tree.childNodes ≠ [] := by
      intro hcon
      rw [uctSearch] at hcon
      rw [hcon] at hsum
      simp at hsum
      omega
    obtain ⟨j, c, hsel⟩ := lastArgmax_of_ne_nil
      ((fun _ c => c.visits) : MTree M → MTree M → ℕ) hchr
    obtain ⟨hj, hjv, hmax, hlast⟩ := lastArgmax_spec_idx hsel
    have hps := pySortedLast_eq_lastArgmax (fun c : MTree M => c.visits)
      (uctSearch g rnd fuel s N f w).tree.childNodes
    rw [hsel] at hps
    refine ⟨j, hj, ?_, ?_, ?_⟩
    · rw [UCT, hps, hjv]
      rfl
    · intro c2 h2
      rw [hjv]
      exact hmax c2 h2
    · intro k hk hjk
      rw [hjv]
      exact hlast k hk hjk

/-- C6: `AddChild(m, s)` with `m ∈ untriedMoves` removes `m` from
`untriedMoves`, appends a new child whose `move` is `m` and whose
`untriedMoves` and `playerJustMoved` are taken from `s`, and returns that
child; with `m ∉ untriedMoves` it fails (the `ValueError` of `list.remove`,
modelled by `none`), leaving no modified node. -/
theorem AddChild_spec (g : Game S M) (t : MTree M) (m : M) (s : S) :
    (m ∈ t.untriedMoves →
      t.AddChild g m s = some
        (MTree.mk t.move t.wins t.visits (t.untriedMoves.erase m)
          t.playerJustMoved t.rollouts_counter t.last_rollout_res
          (t.childNodes ++ [newNode g (some m) s]),
        newNode g (some m) s) ∧
      (newNode g (some m) s).move = some m ∧
      (newNode g (some m) s).untriedMoves = g.getMoves s ∧
      (newNode g (some m) s).playerJustMoved = g.playerJustMoved s) ∧
    (m ∉ t.untriedMoves → t.AddChild g m s = none) := by
  obtain ⟨mv, wn, v, u, p, ct, lr, ch⟩ := t
  constructor
  · intro hm
    simp only [MTree.untriedMoves] at hm
    refine ⟨?_, rfl, rfl, rfl⟩
    simp only [MTree.AddChild, MTree.move, MTree.wins, MTree.visits,
      MTree.untriedMoves, MTree.playerJustMoved, MTree.rollouts_counter,
      MTree.last_rollout_res, MTree.childNodes]
    rw [if_pos hm]
  · intro hm
    simp only [MTree.untriedMoves] at hm
    simp only [MTree.AddChild]
    rw [if_neg hm]

end SelectionTheorems

/-- C7: `Update(r)` increments `visits` by exactly 1, increases `wins` by
exactly `r`, increments the count stored for key `r` in `rollouts_counter` by
exactly 1, and sets `last_rollout_res` to `r`. -/
theorem Update_spec {M : Type} (t : MTree M) (r : ℚ) :
    (t.Update r).visits = t.visits + 1 ∧
    (t.Update r).wins = t.wins + r ∧
    counterCount (t.Update r).rollouts_counter r =
      counterCount t.rollouts_counter r + 1 ∧
    (t.Update r).last_rollout_res = some r := by
  refine ⟨by simp, by simp, ?_, by simp⟩
  rw [MTree.Update_counter]
  exact counterCount_incr _ _

/-- The mean of the outcome distribution as the specification writes it:
`mean = Σ(value·count)/visits`, evaluated in ℝ (the source computes it in the
result field; `node_mean_cast` shows the two agree). -/
noncomputable def spec_mean {M : Type} (t : MTree M) : ℝ :=
  (t.rollouts_counter.map (fun q => (q.1 : ℝ) * (q.2 : ℝ))).sum / (t.visits : ℝ)

theorem node_mean_cast {M : Type} (t : MTree M) :
    ((node_mean t : ℚ) : ℝ) = spec_mean t := by
  rw [node_mean, spec_mean, Rat.cast_div]
  congr 1
  · rw [Rat.cast_list_sum, List.map_map]
    congr 1
    refine List.map_congr_left ?_
    intro q hq
    simp only [Function.comp_apply]
    push_cast
    ring

/-- C9: for every node with `visits ≥ 1`, `regular_std` returns
`sqrt((Σ count·(value-mean)²)/visits)` with `mean = Σ(value·count)/visits`
over the outcome distribution, `last_res_std` returns
`|mean - last_rollout_res|`, and both values are non-negative. -/
theorem std_heuristics_spec {M : Type} (t : MTree M) (r : ℚ)
    (hv : 1 ≤ t.visits) (hl : t.last_rollout_res = some r) :
    regular_std t = Real.sqrt
      ((t.rollouts_counter.map
          (fun q => (q.2 : ℝ) * ((q.1 : ℝ) - spec_mean t) ^ 2)).sum /
        (t.visits : ℝ)) ∧
    0 ≤ regular_std t ∧
    last_res_std t = some |node_mean t - r| ∧
    (0 : ℚ) ≤ |node_mean t - r| := by
  refine ⟨?_, Real.sqrt_nonneg _, ?_, abs_nonneg _⟩
  · rw [regular_std]
    congr 1
    rw [Rat.cast_div]
    congr 1
    · rw [Rat.cast_list_sum, List.map_map]
      congr 1
      refine List.map_congr_left ?_
      intro q hq
      simp only [Function.comp_apply]
      rw [Rat.cast_mul, Rat.cast_pow, Rat.cast_sub, node_mean_cast]
      push_cast
      ring
  · rw [last_res_std, hl]
    rfl

/-- A tiny concrete game used to instantiate the search theorems: a one-heap
subtraction game whose only move removes one chip; a state is the pair
(chips, playerJustMoved). -/
def demoGame : Game (ℕ × ℕ) ℕ where
  doMove := fun s _ => (s.1 - 1, 3 - s.2)
  getMoves := fun s => if s.1 = 0 then [] else [1]
  getResult := fun s q => if s.2 = q then 1 else 0
  playerJustMoved := fun s => s.2

/-- A small concrete two-child node used to instantiate the selection
theorems. -/
def demoTree : MTree ℕ :=
  .mk none 0 2 [] 1 [] none
    [.mk (some 1) 1 1 [] 2 [(1, 1)] (some 1) [],
     .mk (some 2) 0 1 [] 2 [(0, 1)] (some 0) []]

/-- A concrete node with two recorded rollout outcomes, for the heuristic
statistics. -/
def demoStatsNode : MTree ℕ := .mk (some 1) 1 2 [] 1 [(1, 1), (0, 1)] (some 0) []

/-- A concrete node with two untried moves, for `AddChild`. -/
def demoNode : MTree ℕ := .mk none 0 0 [1, 2] 1 [] none []

theorem UCT_returns_most_visited_root_child_witness :
    ∃ (m : ℕ) (c : MTree ℕ),
      UCT demoGame (fun _ => 0) 5 (2, 2) 1 (fun _ => 0) 0 = some m ∧
      c ∈ (uctSearch demoGame (fun _ => 0) 5 (2, 2) 1
        (fun _ => 0) 0).tree.childNodes ∧
      c.move = some m ∧
      ∀ c2 ∈ (uctSearch demoGame (fun _ => 0) 5 (2, 2) 1
          (fun _ => 0) 0).tree.childNodes,
        c2.visits ≤ c.visits :=
  UCT_returns_most_visited_root_child demoGame (fun _ => 0) 5 (2, 2) 1
    (fun _ => 0) 0 (by decide) (by decide)

theorem UCTSelectChild_maximizes_blended_score_witness :
    ∃ c, demoTree.UCTSelectChild (fun _ => 0) 0 = some c ∧
      c ∈ demoTree.childNodes ∧
      ∀ c2 ∈ demoTree.childNodes,
        uctScore (fun _ => 0) 0 demoTree c2 ≤ uctScore (fun _ => 0) 0 demoTree c :=
  UCTSelectChild_maximizes_blended_score (fun _ => 0) 0 demoTree
    (by simp [demoTree, MTree.childNodes])
    (by simp [demoTree, MTree.visits])
    (by
      intro c hc
      simp only [demoTree, MTree.childNodes, List.mem_cons,
        List.not_mem_nil, or_false] at hc
      rcases hc with rfl | rfl <;> simp [MTree.visits])

theorem uct_root_visits_eq_budget_witness :
    (uctSearch demoGame (fun _ => 0) 5 (2, 2) 3 (fun _ => 0) 0).tree.visits = 3 ∧
    ((uctSearch demoGame (fun _ => 0) 5 (2, 2) 3
        (fun _ => 0) 0).tree.childNodes.map MTree.visits).sum = 3 :=
  uct_root_visits_eq_budget demoGame (fun _ => 0) 5 (2, 2) 3 (fun _ => 0) 0
    (by decide) (by decide)

theorem UCT_terminal_root_fails_witness :
    UCT demoGame (fun _ => 0) 5 (0, 2) 1 (fun _ => 0) 0 = none :=
  UCT_terminal_root_fails demoGame (fun _ => 0) 5 (0, 2) 1 (fun _ => 0) 0
    (by decide) (by decide)

theorem AddChild_spec_witness :
    demoNode.AddChild demoGame 1 (1, 1) = some
      (MTree.mk demoNode.move demoNode.wins demoNode.visits
        (demoNode.untriedMoves.erase 1) demoNode.playerJustMoved
        demoNode.rollouts_counter demoNode.last_rollout_res
        (demoNode.childNodes ++ [newNode demoGame (some 1) (1, 1)]),
      newNode demoGame (some 1) (1, 1)) ∧
    (MTree.mk none 0 0 ([] : List ℕ) 1 [] none []).AddChild demoGame 1 (1, 1) =
      none :=
  ⟨((AddChild_spec demoGame demoNode 1 (1, 1)).1 (by decide)).1,
    (AddChild_spec demoGame (MTree.mk none 0 0 [] 1 [] none []) 1 (1, 1)).2
      (by decide)⟩

theorem std_heuristics_spec_witness :
    regular_std demoStatsNode = Real.sqrt
      ((demoStatsNode.rollouts_counter.map
          (fun q => (q.2 : ℝ) * ((q.1 : ℝ) - spec_mean demoStatsNode) ^ 2)).sum /
        (demoStatsNode.visits : ℝ)) ∧
    0 ≤ regular_std demoStatsNode ∧
    last_res_std demoStatsNode = some |node_mean demoStatsNode - 0| ∧
    (0 : ℚ) ≤ |node_mean demoStatsNode - 0| :=
  std_heuristics_spec demoStatsNode 0 (by decide) (by rfl)

theorem uct_tie_break_favors_last_witness :
    (∃ (j : ℕ) (hj : j < demoTree.childNodes.length),
      demoTree.UCTSelectChild (fun _ => 0) 0 =
        some (demoTree.childNodes.get ⟨j, hj⟩) ∧
      (∀ c ∈ demoTree.childNodes,
        uctScore (fun _ => 0) 0 demoTree c ≤
          uctScore (fun _ => 0) 0 demoTree (demoTree.childNodes.get ⟨j, hj⟩)) ∧
      ∀ (k : ℕ) (hk : k < demoTree.childNodes.length), j < k →
        uctScore (fun _ => 0) 0 demoTree (demoTree.childNodes.get ⟨k, hk⟩) <
          uctScore (fun _ => 0) 0 demoTree (demoTree.childNodes.get ⟨j, hj⟩)) ∧
    (∃ (j : ℕ) (hj : j < (uctSearch demoGame (fun _ => 0) 5 (2, 2) 1
        (fun _ => 0) 0).tree.childNodes.length),
      UCT demoGame (fun _ => 0) 5 (2, 2) 1 (fun _ => 0) 0 =
        ((uctSearch demoGame (fun _ => 0) 5 (2, 2) 1
          (fun _ => 0) 0).tree.childNodes.get ⟨j, hj⟩).move ∧
      (∀ c ∈ (uctSearch demoGame (fun _ => 0) 5 (2, 2) 1
          (fun _ => 0) 0).tree.childNodes,
        c.visits ≤ ((uctSearch demoGame (fun _ => 0) 5 (2, 2) 1
          (fun _ => 0) 0).tree.childNodes.get ⟨j, hj⟩).visits) ∧
      ∀ (k : ℕ) (hk : k < (uctSearch demoGame (fun _ => 0) 5 (2, 2) 1
          (fun _ => 0) 0).tree.childNodes.length), j < k →
        ((uctSearch demoGame (fun _ => 0) 5 (2, 2) 1
          (fun _ => 0) 0).tree.childNodes.get ⟨k, hk⟩).visits <
          ((uctSearch demoGame (fun _ => 0) 5 (2, 2) 1
            (fun _ => 0) 0).tree.childNodes.get ⟨j, hj⟩).visits) :=
  uct_tie_break_favors_last demoGame (fun _ => 0) 5 (fun _ => 0) 0 (2, 2) 1
    demoTree (by simp [demoTree, MTree.childNodes]) (by decide) (by decide)

end MCTS
